import Mathlib

/-
Verification of the caching HTTP proxy (src/proxy.c) against its
natural-language specification.

The C program is shallowly embedded: C strings become `List Char`
(NUL-terminated, no interior NUL), the cache linked list becomes a
`List CacheItem`, the global `cachesize` counter (a C `int`) becomes an
`Int`, and every fallible or crashing path (the NULL dereference in
`delete_last_cache` on an empty list, the `strcpy` from a NULL `strtok`
result in `parse_url`) is modelled with `Option`, `none` marking the
undefined behaviour.
-/

set_option maxHeartbeats 1000000

/-- Total cache budget, `MAX_CACHE_SIZE` in proxy.c (used in `int` contexts). -/
def MAX_CACHE_SIZE : Int := 1049000

/-- Per-object ceiling, `MAX_OBJECT_SIZE` in proxy.c. -/
def MAX_OBJECT_SIZE : Nat := 102400

/-- A cache list node (`struct cacheitem` in proxy.c, non-head nodes):
`length` is the byte count of `data`, the key is the (host, port, uri)
triple, `data` the captured response bytes. -/
structure CacheItem where
  length : Nat
  host : List Char
  port : List Char
  uri : List Char
  data : List Char
deriving DecidableEq

/-- The shared cache state: the list hanging off `cachehead` (in
most-recently-used-first order) together with the running `cachesize`. -/
structure Cache where
  items : List CacheItem
  cachesize : Int
deriving DecidableEq

/-- The cache right after initialisation in `main`: empty list, size 0. -/
def emptyCache : Cache := ⟨[], 0⟩

/-- The node built by the insert block of `proxy` (lines 197-204):
`ci->length = len` with `len` the byte count of the captured data. -/
def mkItem (host port uri data : List Char) : CacheItem :=
  ⟨data.length, host, port, uri, data⟩

/-- The key comparison of `get_cached_item`:
`!strcmp(host, curr->host) && !strcmp(port, curr->port) && !strcmp(uri, curr->uri)`. -/
def matchesKey (host port uri : List Char) (e : CacheItem) : Bool :=
  decide (e.host = host ∧ e.port = port ∧ e.uri = uri)

/-- Sum of the `length` fields of a list of cache items, as an `Int`
(the value `cachesize` is supposed to track). -/
def sumLens : List CacheItem → Int
  | [] => 0
  | e :: es => (e.length : Int) + sumLens es

/-- Number of entries of a list matching a given key. -/
def countKey (host port uri : List Char) (l : List CacheItem) : Nat :=
  (l.filter (matchesKey host port uri)).length

/-- Every key has at most one entry in the list. -/
def KeyUnique (l : List CacheItem) : Prop :=
  ∀ host port uri, countKey host port uri l ≤ 1

/-- The scan-and-unlink loop of `get_cached_item`: find the first node
matching the key, remove it from its position, and return it together
with the list of the remaining nodes in their original order. -/
def extractFirst (host port uri : List Char) : List CacheItem → Option (CacheItem × List CacheItem)
  | [] => none
  | e :: es =>
    if matchesKey host port uri e then some (e, es)
    else (extractFirst host port uri es).map (fun p => (p.1, e :: p.2))

/-- `get_cached_item` (proxy.c lines 282-298): on a hit the matching node
is unlinked and re-linked at the front (`cachehead->next`); on a miss the
cache is untouched and NULL is returned. `cachesize` is never changed. -/
def get_cached_item (c : Cache) (host port uri : List Char) : Option CacheItem × Cache :=
  match extractFirst host port uri c.items with
  | none => (none, c)
  | some (e, rest) => (some e, ⟨e :: rest, c.cachesize⟩)

/-- `delete_last_cache` (proxy.c lines 303-322) on a non-empty list:
drop the last node and subtract its length from `cachesize`. The empty
case (where the C code dereferences `last->next` with `last == NULL`)
is guarded by the caller in this embedding. -/
def delete_last_cache (c : Cache) : Cache :=
  ⟨c.items.dropLast,
   c.cachesize - (((c.items.getLast?).map (fun e => (e.length : Int))).getD 0)⟩

/-- The eviction loop of `proxy` (lines 193-195):
`while (cachesize + len > MAX_CACHE_SIZE) delete_last_cache();`.
`fuel` is instantiated with the list length by `evictLoop`, so the
`fuel = 0` branch is reached exactly when the list has become empty; a
`none` result marks the NULL dereference that `delete_last_cache` would
perform on an empty list. -/
def evictGo (len : Nat) : Nat → Cache → Option Cache
  | 0, c => if c.cachesize + (len : Int) > MAX_CACHE_SIZE then none else some c
  | fuel + 1, c =>
    if c.cachesize + (len : Int) > MAX_CACHE_SIZE then
      if c.items.isEmpty then none
      else evictGo len fuel (delete_last_cache c)
    else some c

/-- The eviction loop entered with the current list. -/
def evictLoop (len : Nat) (c : Cache) : Option Cache :=
  evictGo len c.items.length c

/-- The insert block of `proxy` (lines 191-209): evict until the new
entry fits, then prepend it as most-recently-used and add its length to
`cachesize`. `none` marks the crash of the eviction loop. -/
def cache_insert (c : Cache) (host port uri data : List Char) : Option Cache :=
  match evictLoop data.length c with
  | none => none
  | some c1 => some ⟨mkItem host port uri data :: c1.items, c1.cachesize + (data.length : Int)⟩

/-- A cache operation as seen by a connection handler. -/
inductive CacheOp where
  | op_lookup (host port uri : List Char)
  | op_insert (host port uri data : List Char)
deriving DecidableEq

/-- Apply one cache operation. -/
def applyOp (c : Cache) : CacheOp → Option Cache
  | .op_lookup host port uri => some (get_cached_item c host port uri).2
  | .op_insert host port uri data => cache_insert c host port uri data

/-- Run a sequence of cache operations, stopping with `none` on a crash. -/
def runOps (c : Cache) : List CacheOp → Option Cache
  | [] => some c
  | o :: os =>
    match applyOp c o with
    | none => none
    | some c1 => runOps c1 os

-- ### basic list lemmas

theorem sumLens_append (l1 l2 : List CacheItem) :
    sumLens (l1 ++ l2) = sumLens l1 + sumLens l2 := by
  induction l1 with
  | nil => simp [sumLens]
  | cons e es ih => simp [sumLens, ih]; ring

theorem sumLens_nonneg (l : List CacheItem) : 0 ≤ sumLens l := by
  induction l with
  | nil => simp [sumLens]
  | cons e es ih => simp [sumLens]; positivity

theorem sumLens_dropLast (l : List CacheItem) (h : l ≠ []) :
    sumLens l.dropLast
      = sumLens l - (((l.getLast?).map (fun e => (e.length : Int))).getD 0) := by
  have hd := List.dropLast_append_getLast h
  have : sumLens l = sumLens l.dropLast + (l.getLast h).length := by
    conv_lhs => rw [← hd]
    rw [sumLens_append]; simp [sumLens]
  rw [List.getLast?_eq_getLast l h]
  simp only [Option.map_some', Option.getD_some]
  omega

theorem take_dropLast (l : List CacheItem) (j : Nat) (h : j ≤ l.length - 1) :
    l.dropLast.take j = l.take j := by
  rw [List.dropLast_eq_take, List.take_take]
  congr 1
  omega

-- ### eviction loop correctness

theorem evictGo_spec (fuel : Nat) :
    ∀ (c : Cache) (len : Nat),
      fuel = c.items.length →
      c.cachesize = sumLens c.items →
      (len : Int) ≤ MAX_CACHE_SIZE →
      ∃ j, j ≤ c.items.length ∧
        evictGo len fuel c = some ⟨c.items.take j, sumLens (c.items.take j)⟩ ∧
        sumLens (c.items.take j) + (len : Int) ≤ MAX_CACHE_SIZE ∧
        ∀ i, j < i → i ≤ c.items.length →
          MAX_CACHE_SIZE < sumLens (c.items.take i) + (len : Int) := by
  induction fuel with
  | zero =>
    intro c len hfuel hsz hlen
    have hnil : c.items = [] := List.length_eq_zero.mp (by omega)
    refine ⟨0, by simp, ?_, ?_, ?_⟩
    · have hc : c = ⟨[], 0⟩ := by
        cases c with
        | mk items sz =>
          simp only at hnil
          subst hnil
          simp [sumLens] at hsz
          simp [hsz]
      rw [hc]
      simp [evictGo, sumLens]
      omega
    · rw [hnil]; simp [sumLens]; omega
    · intro i hi hi2
      rw [hnil] at hi2
      simp at hi2
      omega
  | succ fuel ih =>
    intro c len hfuel hsz hlen
    by_cases hover : c.cachesize + (len : Int) > MAX_CACHE_SIZE
    · have hne : c.items ≠ [] := by
        intro hnil
        rw [hnil] at hfuel
        simp at hfuel
      have hlen1 : c.items.length = fuel + 1 := hfuel.symm
      -- step: delete the last node
      set c1 := delete_last_cache c with hc1
      have hitems1 : c1.items = c.items.dropLast := rfl
      have hsz1 : c1.cachesize = sumLens c1.items := by
        rw [hitems1, sumLens_dropLast c.items hne]
        show c.cachesize - _ = _
        omega
      have hfuel1 : fuel = c1.items.length := by
        rw [hitems1, List.length_dropLast]
        omega
      obtain ⟨j, hj, heq, hfit, hmin⟩ := ih c1 len hfuel1 hsz1 hlen
      have hjle : j ≤ c.items.length - 1 := by
        rw [hitems1, List.length_dropLast] at hj
        omega
      have htake : c1.items.take j = c.items.take j := by
        rw [hitems1]
        exact take_dropLast c.items j hjle
      refine ⟨j, by omega, ?_, ?_, ?_⟩
      · have hrun : evictGo len (fuel + 1) c = evictGo len fuel c1 := by
          simp only [evictGo]
          rw [if_pos hover, if_neg (by simpa [List.isEmpty_iff] using hne)]
        rw [hrun, heq, htake]
      · rw [← htake]; exact hfit
      · intro i hji hile
        by_cases hi : i ≤ c.items.length - 1
        · have := hmin i hji (by rw [hitems1, List.length_dropLast]; omega)
          rw [hitems1, take_dropLast c.items i hi] at this
          exact this
        · have hieq : i = c.items.length := by omega
          rw [hieq, List.take_length]
          omega
    · refine ⟨c.items.length, le_refl _, ?_, ?_, ?_⟩
      · rw [List.take_length]
        simp only [evictGo]
        rw [if_neg hover, ← hsz]
      · rw [List.take_length, ← hsz]; omega
      · intro i hi hi2; omega

theorem evictGo_not_over (fuel : Nat) (c : Cache) (len : Nat)
    (h : ¬ c.cachesize + (len : Int) > MAX_CACHE_SIZE) :
    evictGo len fuel c = some c := by
  cases fuel <;> simp [evictGo, if_neg h]

/-- Whatever happens, eviction only ever removes a suffix: the surviving
items are a `take` of the original list (no size invariant needed). -/
theorem evictGo_items_take (fuel : Nat) :
    ∀ (c c1 : Cache) (len : Nat), evictGo len fuel c = some c1 →
      ∃ j, j ≤ c.items.length ∧ c1.items = c.items.take j := by
  induction fuel with
  | zero =>
    intro c c1 len h
    simp only [evictGo] at h
    split at h
    · exact absurd h (by simp)
    · refine ⟨c.items.length, le_refl _, ?_⟩
      rw [List.take_length]
      cases h; rfl
  | succ fuel ih =>
    intro c c1 len h
    simp only [evictGo] at h
    split at h
    · split at h
      · exact absurd h (by simp)
      · obtain ⟨j, hj, hit⟩ := ih (delete_last_cache c) c1 len h
        have hd : (delete_last_cache c).items = c.items.dropLast := rfl
        rw [hd] at hj hit
        refine ⟨j, by rw [List.length_dropLast] at hj; omega, ?_⟩
        rw [hit, take_dropLast c.items j (by rw [List.length_dropLast] at hj; omega)]
    · refine ⟨c.items.length, le_refl _, ?_⟩
      rw [List.take_length]
      cases h; rfl

theorem cache_insert_spec (c : Cache) (host port uri data : List Char)
    (hsz : c.cachesize = sumLens c.items)
    (hlen : (data.length : Int) ≤ MAX_CACHE_SIZE) :
    ∃ j, j ≤ c.items.length ∧
      cache_insert c host port uri data
        = some ⟨mkItem host port uri data :: c.items.take j,
                sumLens (c.items.take j) + (data.length : Int)⟩ ∧
      sumLens (c.items.take j) + (data.length : Int) ≤ MAX_CACHE_SIZE ∧
      ∀ i, j < i → i ≤ c.items.length →
        MAX_CACHE_SIZE < sumLens (c.items.take i) + (data.length : Int) := by
  obtain ⟨j, hj, heq, hfit, hmin⟩ :=
    evictGo_spec c.items.length c data.length rfl hsz hlen
  refine ⟨j, hj, ?_, hfit, hmin⟩
  simp only [cache_insert, evictLoop, heq]

-- ### lookup structure lemmas

theorem extractFirst_some (host port uri : List Char) :
    ∀ (l : List CacheItem) (e : CacheItem) (rest : List CacheItem),
      extractFirst host port uri l = some (e, rest) →
      ∃ l1 l2, l = l1 ++ e :: l2 ∧ rest = l1 ++ l2 ∧ matchesKey host port uri e = true := by
  intro l
  induction l with
  | nil => intro e rest h; simp [extractFirst] at h
  | cons a as ih =>
    intro e rest h
    simp only [extractFirst] at h
    by_cases hm : matchesKey host port uri a = true
    · rw [if_pos hm] at h
      cases h
      exact ⟨[], as, by simp, by simp, hm⟩
    · rw [if_neg hm, Option.map_eq_some'] at h
      obtain ⟨p, hx, hfe⟩ := h
      obtain ⟨f, fs⟩ := p
      obtain ⟨l1, l2, h1, h2, h3⟩ := ih f fs hx
      have he : f = e := congrArg Prod.fst hfe
      have hr : a :: fs = rest := congrArg Prod.snd hfe
      subst he
      subst hr
      exact ⟨a :: l1, l2, by simp [h1], by simp [h2], h3⟩

theorem extractFirst_none (host port uri : List Char) :
    ∀ l : List CacheItem,
      extractFirst host port uri l = none ↔ ∀ e ∈ l, matchesKey host port uri e = false := by
  intro l
  induction l with
  | nil => simp [extractFirst]
  | cons a as ih =>
    simp only [extractFirst]
    by_cases hm : matchesKey host port uri a = true
    · simp [hm, List.forall_mem_cons]
    · have hma : matchesKey host port uri a = false := by
        simpa using hm
      simp [hm, Option.map_eq_none', ih, List.forall_mem_cons, hma]

-- ### countKey lemmas

theorem countKey_nil (host port uri : List Char) : countKey host port uri [] = 0 := rfl

theorem countKey_cons (host port uri : List Char) (e : CacheItem) (l : List CacheItem) :
    countKey host port uri (e :: l)
      = (if matchesKey host port uri e then 1 else 0) + countKey host port uri l := by
  simp only [countKey, List.filter_cons]
  split <;> simp [Nat.add_comm]

theorem countKey_append (host port uri : List Char) (l1 l2 : List CacheItem) :
    countKey host port uri (l1 ++ l2)
      = countKey host port uri l1 + countKey host port uri l2 := by
  simp [countKey, List.filter_append]

theorem countKey_take_le (host port uri : List Char) (l : List CacheItem) (j : Nat) :
    countKey host port uri (l.take j) ≤ countKey host port uri l := by
  have hs : List.Sublist (l.take j) l := List.take_sublist j l
  exact List.Sublist.length_le (List.Sublist.filter _ hs)

theorem countKey_eq_zero (host port uri : List Char) (l : List CacheItem) :
    countKey host port uri l = 0 ↔ ∀ e ∈ l, matchesKey host port uri e = false := by
  simp only [countKey, List.length_eq_zero, List.filter_eq_nil_iff]
  constructor
  · intro h e he
    have := h e he
    simpa using this
  · intro h e he
    simp [h e he]

-- ### the cache invariant along any operation sequence

theorem runOps_inv :
    ∀ (ops : List CacheOp) (c : Cache),
      c.cachesize = sumLens c.items →
      c.cachesize ≤ MAX_CACHE_SIZE →
      (∀ host port uri data, CacheOp.op_insert host port uri data ∈ ops →
        data.length < MAX_OBJECT_SIZE) →
      ∃ c1, runOps c ops = some c1 ∧
        c1.cachesize = sumLens c1.items ∧ c1.cachesize ≤ MAX_CACHE_SIZE := by
  intro ops
  induction ops with
  | nil =>
    intro c h1 h2 _
    exact ⟨c, rfl, h1, h2⟩
  | cons o os ih =>
    intro c h1 h2 hlens
    cases o with
    | op_lookup host port uri =>
      have hstep : ∃ c1, applyOp c (CacheOp.op_lookup host port uri) = some c1 ∧
          c1.cachesize = sumLens c1.items ∧ c1.cachesize ≤ MAX_CACHE_SIZE := by
        cases hx : extractFirst host port uri c.items with
        | none =>
          refine ⟨c, ?_, h1, h2⟩
          simp [applyOp, get_cached_item, hx]
        | some p =>
          obtain ⟨e, rest⟩ := p
          obtain ⟨l1, l2, hl, hr, _⟩ := extractFirst_some host port uri c.items e rest hx
          refine ⟨⟨e :: rest, c.cachesize⟩, ?_, ?_, h2⟩
          · simp [applyOp, get_cached_item, hx]
          · show c.cachesize = sumLens (e :: rest)
            rw [h1, hl, hr]
            simp only [sumLens, sumLens_append]
            ring
      obtain ⟨c1, hc1, hinv1, hbud1⟩ := hstep
      obtain ⟨c2, hc2, hinv2, hbud2⟩ :=
        ih c1 hinv1 hbud1 (fun h p u d hm => hlens h p u d (List.mem_cons_of_mem _ hm))
      refine ⟨c2, ?_, hinv2, hbud2⟩
      simp only [runOps, hc1, hc2]
    | op_insert host port uri data =>
      have hd : data.length < MAX_OBJECT_SIZE :=
        hlens host port uri data (by simp)
      have hdI : (data.length : Int) ≤ MAX_CACHE_SIZE := by
        simp only [MAX_OBJECT_SIZE] at hd
        simp only [MAX_CACHE_SIZE]
        omega
      obtain ⟨j, hj, heq, hfit, _⟩ := cache_insert_spec c host port uri data h1 hdI
      have hinv1 : (sumLens (c.items.take j) + (data.length : Int))
          = sumLens (mkItem host port uri data :: c.items.take j) := by
        simp [sumLens, mkItem]; ring
      obtain ⟨c2, hc2, hinv2, hbud2⟩ :=
        ih ⟨mkItem host port uri data :: c.items.take j,
            sumLens (c.items.take j) + (data.length : Int)⟩
          (by simpa using hinv1)
          (by simpa using hfit)
          (fun h p u d hm => hlens h p u d (List.mem_cons_of_mem _ hm))
      refine ⟨c2, ?_, hinv2, hbud2⟩
      simp only [runOps, applyOp, heq, hc2]

-- ### strtok and the request line parser

/-- One `strtok` call on a buffer `b` with delimiter test `isDelim`,
returning (token or NULL, the position saved for the next `strtok` call,
what `strcpy` from the start of the buffer now copies). `strtok` skips
leading delimiters, cuts the token at the next delimiter, overwrites that
delimiter with NUL and saves the position right after it; when the token
runs to the end of the buffer the saved position is the terminator, and
when the buffer is all delimiters no token is found and the buffer is
left unchanged. -/
def strtokFirst (isDelim : Char → Bool) (b : List Char) :
    Option (List Char) × List Char × List Char :=
  if (b.dropWhile isDelim).isEmpty then (none, [], b)
  else
    (some ((b.dropWhile isDelim).takeWhile (fun c => !isDelim c)),
     ((b.dropWhile isDelim).dropWhile (fun c => !isDelim c)).drop 1,
     b.takeWhile isDelim ++ (b.dropWhile isDelim).takeWhile (fun c => !isDelim c))

/-- `check_request_line` (proxy.c lines 226-239): fail if the line has no
space at all; tokenise with `strtok(reqline, " ")` twice and once with
delimiters `"\r\n"`; fail when the third token is NULL or is neither
`HTTP/1.1` nor `HTTP/1.0`; otherwise return (method, url, version). -/
def check_request_line (reqline : List Char) :
    Option (List Char × List Char × List Char) :=
  if ' ' ∈ reqline then
    match strtokFirst (fun c => c == ' ') reqline with
    | (m, s1, _) =>
      match strtokFirst (fun c => c == ' ') s1 with
      | (u, s2, _) =>
        match strtokFirst (fun c => c == '\r' || c == '\n') s2 with
        | (none, _, _) => none
        | (some vt, _, _) =>
          if vt = ("HTTP/1.1".data) ∨ vt = ("HTTP/1.0".data) then
            some (m.getD [], u.getD [], vt)
          else none
  else none

-- ### the URL resolver

/-- Strip of the optional scheme: `if (!strncmp(url, "http://", 7)) url += 7;`. -/
def stripScheme (u : List Char) : List Char :=
  if u.take 7 = ("http://".data) then u.drop 7 else u

/-- The URI built at the end of `parse_url` (lines 268-275): `"/"` when
nothing remains for `strtok(NULL, "")`, otherwise a `/` prepended to the
remainder. -/
def uriFromRest : List Char → List Char
  | [] => ("/".data)
  | s => '/' :: s

/-- `parse_url` after the scheme strip (proxy.c lines 251-275). The
branch is chosen by `strchr(url, ':')`, i.e. by whether `:` occurs
anywhere in the string. In the `:` branch, `strtok(NULL, "/")` can
return NULL (nothing after the colon but slashes), upon which the C code
passes NULL to `strcpy`: that undefined behaviour is `none` here. -/
def parse_url_core (u : List Char) : Option (List Char × List Char × List Char) :=
  if ':' ∈ u then
    match strtokFirst (fun c => c == ':') u with
    | (_, s1, hostCopy) =>
      match strtokFirst (fun c => c == '/') s1 with
      | (none, _, _) => none
      | (some ptok, s2, _) =>
        some (hostCopy, ptok, if '/' ∈ u then uriFromRest s2 else ("/".data))
  else
    match strtokFirst (fun c => c == '/') u with
    | (_, s1, hostCopy) =>
      some (hostCopy, ("80".data), if '/' ∈ u then uriFromRest s1 else ("/".data))

/-- `parse_url` (proxy.c lines 244-276). -/
def parse_url (u : List Char) : Option (List Char × List Char × List Char) :=
  parse_url_core (stripScheme u)

-- ### takeWhile / dropWhile helpers

theorem takeWhile_append_stop (p : Char → Bool) :
    ∀ (t : List Char), (∀ c ∈ t, p c = true) → ∀ (x : Char), p x = false →
      ∀ r, (t ++ x :: r).takeWhile p = t ∧ (t ++ x :: r).dropWhile p = x :: r := by
  intro t
  induction t with
  | nil =>
    intro _ x hx r
    constructor
    · simp [List.takeWhile_cons, hx]
    · simp [List.dropWhile_cons, hx]
  | cons a as ih =>
    intro hall x hx r
    have ha : p a = true := hall a (by simp)
    have hrec := ih (fun c hc => hall c (List.mem_cons_of_mem a hc)) x hx r
    constructor
    · simp [List.takeWhile_cons, ha, hrec.1]
    · simp [List.dropWhile_cons, ha, hrec.2]

theorem takeWhile_all_true (p : Char → Bool) :
    ∀ (t : List Char), (∀ c ∈ t, p c = true) →
      t.takeWhile p = t ∧ t.dropWhile p = [] := by
  intro t
  induction t with
  | nil => intro _; simp
  | cons a as ih =>
    intro hall
    have ha : p a = true := hall a (by simp)
    have hrec := ih (fun c hc => hall c (List.mem_cons_of_mem a hc))
    constructor
    · simp [List.takeWhile_cons, ha, hrec.1]
    · simp [List.dropWhile_cons, ha, hrec.2]

-- ### strtok lemmas

theorem strtokFirst_nil (isD : Char → Bool) : strtokFirst isD [] = (none, [], []) := by
  simp [strtokFirst]

theorem strtokFirst_token (isD : Char → Bool) (t : List Char) (x : Char) (r : List Char)
    (ht : t ≠ []) (hall : ∀ c ∈ t, isD c = false) (hx : isD x = true) :
    strtokFirst isD (t ++ x :: r) = (some t, r, t) := by
  have hnot : ∀ c ∈ t, (!isD c) = true := fun c hc => by simp [hall c hc]
  have hdw : (t ++ x :: r).dropWhile isD = t ++ x :: r := by
    cases t with
    | nil => exact absurd rfl ht
    | cons a as =>
      have ha : isD a = false := hall a (by simp)
      simp [List.dropWhile_cons, ha]
  have h2 := takeWhile_append_stop (fun c => !isD c) t hnot x (by simp [hx]) r
  have h3 : (t ++ x :: r).takeWhile isD = [] := by
    cases t with
    | nil => exact absurd rfl ht
    | cons a as =>
      have ha : isD a = false := hall a (by simp)
      simp [List.takeWhile_cons, ha]
  have hne : (t ++ x :: r).isEmpty = false := by cases t <;> simp
  simp only [strtokFirst, hdw, hne, h2.1, h2.2, h3]
  simp

theorem strtokFirst_end (isD : Char → Bool) (t : List Char)
    (ht : t ≠ []) (hall : ∀ c ∈ t, isD c = false) :
    strtokFirst isD t = (some t, [], t) := by
  have hnot : ∀ c ∈ t, (!isD c) = true := fun c hc => by simp [hall c hc]
  have h2 := takeWhile_all_true (fun c => !isD c) t hnot
  have hdw : t.dropWhile isD = t := by
    cases t with
    | nil => exact absurd rfl ht
    | cons a as =>
      have ha : isD a = false := hall a (by simp)
      simp [List.dropWhile_cons, ha]
  have h3 : t.takeWhile isD = [] := by
    cases t with
    | nil => exact absurd rfl ht
    | cons a as =>
      have ha : isD a = false := hall a (by simp)
      simp [List.takeWhile_cons, ha]
  have hne : t.isEmpty = false := by
    cases t with
    | nil => exact absurd rfl ht
    | cons a as => simp
  simp only [strtokFirst, hdw, hne, h2.1, h2.2, h3]
  simp

-- ### request lines built from whitespace-free tokens

/-- A well-formed request-line token: non-empty, and free of the space,
carriage-return and line-feed bytes. -/
def isToken (t : List Char) : Prop :=
  t ≠ [] ∧ ∀ c ∈ t, c ≠ ' ' ∧ c ≠ '\r' ∧ c ≠ '\n'

instance (t : List Char) : Decidable (isToken t) := by
  unfold isToken
  infer_instance

/-- Tokens joined by single spaces. -/
def joinTokens : List (List Char) → List Char
  | [] => []
  | [t] => t
  | t :: u :: us => t ++ ' ' :: joinTokens (u :: us)

/-- A request line made of tokens, optionally terminated by CRLF. -/
def mkLine (ts : List (List Char)) (crlf : Bool) : List Char :=
  joinTokens ts ++ (if crlf then ("\r\n".data) else [])

theorem token_no_space (t : List Char) (h : isToken t) : ∀ c ∈ t, (c == ' ') = false := by
  intro c hc
  have hne := (h.2 c hc).1
  simp [hne]

theorem token_no_crlf (t : List Char) (h : isToken t) :
    ∀ c ∈ t, ((c == '\r') || (c == '\n')) = false := by
  intro c hc
  obtain ⟨_, h2, h3⟩ := h.2 c hc
  simp [h2, h3]

theorem crlf_data_eq : ("\r\n".data) = ['\r', '\n'] := rfl

theorem joinTokens_no_crlf :
    ∀ ts : List (List Char), (∀ t ∈ ts, isToken t) →
      ∀ c ∈ joinTokens ts, ((c == '\r') || (c == '\n')) = false := by
  intro ts
  induction ts with
  | nil => intro _ c hc; simp [joinTokens] at hc
  | cons t us ih =>
    intro hall c hc
    cases us with
    | nil =>
      simp only [joinTokens] at hc
      exact token_no_crlf t (hall t (by simp)) c hc
    | cons u us2 =>
      simp only [joinTokens] at hc
      rcases List.mem_append.mp hc with h | h
      · exact token_no_crlf t (hall t (by simp)) c h
      · rcases List.mem_cons.mp h with rfl | h2
        · decide
        · exact ih (fun x hx => hall x (List.mem_cons_of_mem t hx)) c h2

theorem joinTokens_cons_ne (t : List Char) (ts : List (List Char)) (ht : t ≠ []) :
    joinTokens (t :: ts) ≠ [] := by
  cases ts with
  | nil => simpa [joinTokens] using ht
  | cons u us => simp [joinTokens]

/-- A successful parse of a well-formed `METHOD URL VERSION` line. -/
theorem check_valid_request_line (m u v : List Char) (crlf : Bool)
    (hm : isToken m) (hu : isToken u)
    (hv : v = ("HTTP/1.0".data) ∨ v = ("HTTP/1.1".data)) :
    check_request_line (mkLine [m, u, v] crlf) = some (m, u, v) := by
  have hvtok : isToken v := by rcases hv with rfl | rfl <;> decide
  have hvor : v = ("HTTP/1.1".data) ∨ v = ("HTTP/1.0".data) := hv.elim Or.inr Or.inl
  cases crlf with
  | false =>
    have hline : mkLine [m, u, v] false = m ++ ' ' :: (u ++ ' ' :: v) := by
      simp [mkLine, joinTokens]
    have h1 : strtokFirst (fun c => c == ' ') (m ++ ' ' :: (u ++ ' ' :: v))
        = (some m, u ++ ' ' :: v, m) :=
      strtokFirst_token _ m ' ' _ hm.1 (token_no_space m hm) (by simp)
    have h2 : strtokFirst (fun c => c == ' ') (u ++ ' ' :: v)
        = (some u, v, u) :=
      strtokFirst_token _ u ' ' _ hu.1 (token_no_space u hu) (by simp)
    have h3 : strtokFirst (fun c => c == '\r' || c == '\n') v = (some v, [], v) :=
      strtokFirst_end _ v hvtok.1 (token_no_crlf v hvtok)
    have hsp : ' ' ∈ m ++ ' ' :: (u ++ ' ' :: v) := by simp
    rw [hline]
    unfold check_request_line
    rw [if_pos hsp]
    simp only [h1, h2, h3]
    rw [if_pos hvor]
    simp
  | true =>
    have hline : mkLine [m, u, v] true = m ++ ' ' :: (u ++ ' ' :: (v ++ ['\r', '\n'])) := by
      simp [mkLine, joinTokens, crlf_data_eq]
    have h1 : strtokFirst (fun c => c == ' ')
        (m ++ ' ' :: (u ++ ' ' :: (v ++ ['\r', '\n'])))
        = (some m, u ++ ' ' :: (v ++ ['\r', '\n']), m) :=
      strtokFirst_token _ m ' ' _ hm.1 (token_no_space m hm) (by simp)
    have h2 : strtokFirst (fun c => c == ' ') (u ++ ' ' :: (v ++ ['\r', '\n']))
        = (some u, v ++ ['\r', '\n'], u) :=
      strtokFirst_token _ u ' ' _ hu.1 (token_no_space u hu) (by simp)
    have h3 : strtokFirst (fun c => c == '\r' || c == '\n') (v ++ ['\r', '\n'])
        = (some v, ['\n'], v) := by
      have hsh : v ++ ['\r', '\n'] = v ++ '\r' :: ['\n'] := rfl
      rw [hsh]
      exact strtokFirst_token _ v '\r' _ hvtok.1 (token_no_crlf v hvtok) (by simp)
    have hsp : ' ' ∈ m ++ ' ' :: (u ++ ' ' :: (v ++ ['\r', '\n'])) := by simp
    rw [hline]
    unfold check_request_line
    rw [if_pos hsp]
    simp only [h1, h2, h3]
    rw [if_pos hvor]
    simp

/-- Lines with fewer than three tokens are rejected. -/
theorem check_short_line (ts : List (List Char)) (crlf : Bool)
    (hall : ∀ t ∈ ts, isToken t) (hlen : ts.length < 3) :
    check_request_line (mkLine ts crlf) = none := by
  rcases ts with _ | ⟨t, _ | ⟨t2, _ | ⟨t3, rest⟩⟩⟩
  · cases crlf <;> decide
  · have ht := hall t (by simp)
    have hsp : ' ' ∉ mkLine [t] crlf := by
      simp only [mkLine, joinTokens]
      intro hmem
      rcases List.mem_append.mp hmem with h | h
      · exact (ht.2 ' ' h).1 rfl
      · cases crlf with
        | true =>
          rw [if_pos rfl] at h
          revert h
          decide
        | false => simp at h
    unfold check_request_line
    rw [if_neg hsp]
  · have ht1 := hall t (by simp)
    have ht2 := hall t2 (by simp)
    have hline : mkLine [t, t2] crlf
        = t ++ ' ' :: (t2 ++ (if crlf then ("\r\n".data) else [])) := by
      simp [mkLine, joinTokens]
    have htcl : ∀ c ∈ t2 ++ (if crlf then ("\r\n".data) else []), (c == ' ') = false := by
      intro c hc
      rcases List.mem_append.mp hc with h | h
      · exact token_no_space t2 ht2 c h
      · cases crlf with
        | true =>
          rw [if_pos rfl] at h
          have h' : c = '\r' ∨ c ∈ ['\n'] := List.mem_cons.mp h
          rcases h' with rfl | h2
          · decide
          · rcases List.mem_cons.mp h2 with rfl | h3
            · decide
            · simp at h3
        | false => simp at h
    have hne2 : t2 ++ (if crlf then ("\r\n".data) else []) ≠ [] := by
      cases t2 with
      | nil => exact absurd rfl ht2.1
      | cons a as => simp
    have h1 : strtokFirst (fun c => c == ' ')
        (t ++ ' ' :: (t2 ++ (if crlf then ("\r\n".data) else [])))
        = (some t, t2 ++ (if crlf then ("\r\n".data) else []), t) :=
      strtokFirst_token _ t ' ' _ ht1.1 (token_no_space t ht1) (by simp)
    have h2 : strtokFirst (fun c => c == ' ') (t2 ++ (if crlf then ("\r\n".data) else []))
        = (some (t2 ++ (if crlf then ("\r\n".data) else [])), [],
           t2 ++ (if crlf then ("\r\n".data) else [])) :=
      strtokFirst_end _ _ hne2 htcl
    have h3 := strtokFirst_nil (fun c => c == '\r' || c == '\n')
    have hsp : ' ' ∈ t ++ ' ' :: (t2 ++ (if crlf then ("\r\n".data) else [])) := by simp
    rw [hline]
    unfold check_request_line
    rw [if_pos hsp]
    simp only [h1, h2, h3]
  · simp only [List.length_cons] at hlen
    omega

/-- Lines whose third token is not a supported HTTP version are rejected. -/
theorem check_bad_version (t1 t2 t3 : List Char) (ts : List (List Char)) (crlf : Bool)
    (h1t : isToken t1) (h2t : isToken t2) (h3t : isToken t3)
    (hall : ∀ t ∈ ts, isToken t)
    (hv0 : t3 ≠ ("HTTP/1.0".data)) (hv1 : t3 ≠ ("HTTP/1.1".data)) :
    check_request_line (mkLine (t1 :: t2 :: t3 :: ts) crlf) = none := by
  have hJall : ∀ t ∈ t3 :: ts, isToken t := by
    intro t ht
    rcases List.mem_cons.mp ht with rfl | h
    · exact h3t
    · exact hall t h
  have hJne : joinTokens (t3 :: ts) ≠ [] := joinTokens_cons_ne t3 ts h3t.1
  have hJcr : ∀ c ∈ joinTokens (t3 :: ts), ((c == '\r') || (c == '\n')) = false :=
    joinTokens_no_crlf (t3 :: ts) hJall
  have hJne1 : joinTokens (t3 :: ts) ≠ ("HTTP/1.1".data) := by
    cases ts with
    | nil => simpa [joinTokens] using hv1
    | cons t4 us =>
      intro he
      have hspJ : ' ' ∈ joinTokens (t3 :: t4 :: us) := by
        simp [joinTokens]
      rw [he] at hspJ
      revert hspJ
      decide
  have hJne0 : joinTokens (t3 :: ts) ≠ ("HTTP/1.0".data) := by
    cases ts with
    | nil => simpa [joinTokens] using hv0
    | cons t4 us =>
      intro he
      have hspJ : ' ' ∈ joinTokens (t3 :: t4 :: us) := by
        simp [joinTokens]
      rw [he] at hspJ
      revert hspJ
      decide
  have hline : mkLine (t1 :: t2 :: t3 :: ts) crlf
      = t1 ++ ' ' :: (t2 ++ ' ' :: (joinTokens (t3 :: ts)
          ++ (if crlf then ("\r\n".data) else []))) := by
    simp [mkLine, joinTokens]
  have hs1 : strtokFirst (fun c => c == ' ')
      (t1 ++ ' ' :: (t2 ++ ' ' :: (joinTokens (t3 :: ts)
          ++ (if crlf then ("\r\n".data) else []))))
      = (some t1, t2 ++ ' ' :: (joinTokens (t3 :: ts)
          ++ (if crlf then ("\r\n".data) else [])), t1) :=
    strtokFirst_token _ t1 ' ' _ h1t.1 (token_no_space t1 h1t) (by simp)
  have hs2 : strtokFirst (fun c => c == ' ')
      (t2 ++ ' ' :: (joinTokens (t3 :: ts) ++ (if crlf then ("\r\n".data) else [])))
      = (some t2, joinTokens (t3 :: ts) ++ (if crlf then ("\r\n".data) else []), t2) :=
    strtokFirst_token _ t2 ' ' _ h2t.1 (token_no_space t2 h2t) (by simp)
  have hs3 : strtokFirst (fun c => c == '\r' || c == '\n')
      (joinTokens (t3 :: ts) ++ (if crlf then ("\r\n".data) else []))
      = (some (joinTokens (t3 :: ts)),
         (if crlf then ("\n".data) else []), joinTokens (t3 :: ts)) := by
    cases crlf with
    | true =>
      rw [if_pos rfl, if_pos rfl, crlf_data_eq]
      have hsh : joinTokens (t3 :: ts) ++ ['\r', '\n']
          = joinTokens (t3 :: ts) ++ '\r' :: ['\n'] := rfl
      rw [hsh]
      exact strtokFirst_token _ _ '\r' _ hJne hJcr (by simp)
    | false =>
      rw [if_neg (by simp), if_neg (by simp), List.append_nil]
      exact strtokFirst_end _ _ hJne hJcr
  have hsp : ' ' ∈ t1 ++ ' ' :: (t2 ++ ' ' :: (joinTokens (t3 :: ts)
      ++ (if crlf then ("\r\n".data) else []))) := by simp
  have hnor : ¬(joinTokens (t3 :: ts) = ("HTTP/1.1".data)
      ∨ joinTokens (t3 :: ts) = ("HTTP/1.0".data)) := by
    rintro (he | he)
    · exact hJne1 he
    · exact hJne0 he
  rw [hline]
  unfold check_request_line
  rw [if_pos hsp]
  simp only [hs1, hs2, hs3]
  rw [if_neg hnor]

-- ### parse_url lemmas

theorem strtokFirst_head_not (isD : Char → Bool) (a : Char) (as : List Char)
    (ha : isD a = false) :
    strtokFirst isD (a :: as)
      = (some ((a :: as).takeWhile (fun c => !isD c)),
         ((a :: as).dropWhile (fun c => !isD c)).drop 1,
         (a :: as).takeWhile (fun c => !isD c)) := by
  have hdw : (a :: as).dropWhile isD = a :: as := by simp [List.dropWhile_cons, ha]
  have htk : (a :: as).takeWhile isD = [] := by simp [List.takeWhile_cons, ha]
  have hne : (a :: as).isEmpty = false := by simp
  simp only [strtokFirst, hdw, htk, hne]
  simp

/-- `parse_url` without a colon anywhere: host runs to the first slash,
port defaults to 80. -/
theorem parse_url_core_no_colon (t : List Char)
    (hc : ':' ∉ t) (hh : t.head? ≠ some '/') :
    parse_url_core t
      = some (t.takeWhile (fun c => !(c == '/')), ("80".data),
          if '/' ∈ t then uriFromRest ((t.dropWhile (fun c => !(c == '/'))).drop 1)
          else ("/".data)) := by
  cases t with
  | nil => decide
  | cons a as =>
    have hane : a ≠ '/' := by
      intro he
      rw [he] at hh
      simp at hh
    have ha : (a == '/') = false := by simp [hane]
    unfold parse_url_core
    rw [if_neg hc]
    rw [strtokFirst_head_not (fun c => c == '/') a as ha]

/-- `parse_url` with a colon, and a slash after the colon: host runs to
the first colon, port is the slash-delimited token after it, the URI is
what follows that slash. -/
theorem parse_url_core_colon_slash (h p r : List Char)
    (hh : h ≠ []) (hhc : ∀ c ∈ h, c ≠ ':') (hp : p ≠ []) (hpc : ∀ c ∈ p, c ≠ '/') :
    parse_url_core (h ++ ':' :: (p ++ '/' :: r)) = some (h, p, uriFromRest r) := by
  have hcolon : ':' ∈ h ++ ':' :: (p ++ '/' :: r) := by simp
  have hslash : '/' ∈ h ++ ':' :: (p ++ '/' :: r) := by simp
  have hs1 : strtokFirst (fun c => c == ':') (h ++ ':' :: (p ++ '/' :: r))
      = (some h, p ++ '/' :: r, h) :=
    strtokFirst_token _ h ':' _ hh (fun c hc => by simp [hhc c hc]) (by simp)
  have hs2 : strtokFirst (fun c => c == '/') (p ++ '/' :: r) = (some p, r, p) :=
    strtokFirst_token _ p '/' _ hp (fun c hc => by simp [hpc c hc]) (by simp)
  unfold parse_url_core
  rw [if_pos hcolon]
  simp only [hs1, hs2]
  rw [if_pos hslash]

/-- `parse_url` with a colon but no slash after it: host runs to the
colon, port is the rest, URI defaults to `/`. -/
theorem parse_url_core_colon_no_slash (h p : List Char)
    (hh : h ≠ []) (hhc : ∀ c ∈ h, c ≠ ':') (hp : p ≠ []) (hpc : ∀ c ∈ p, c ≠ '/') :
    parse_url_core (h ++ ':' :: p) = some (h, p, ("/".data)) := by
  have hcolon : ':' ∈ h ++ ':' :: p := by simp
  have hs1 : strtokFirst (fun c => c == ':') (h ++ ':' :: p) = (some h, p, h) :=
    strtokFirst_token _ h ':' _ hh (fun c hc => by simp [hhc c hc]) (by simp)
  have hs2 : strtokFirst (fun c => c == '/') p = (some p, [], p) :=
    strtokFirst_end _ p hp (fun c hc => by simp [hpc c hc])
  unfold parse_url_core
  rw [if_pos hcolon]
  simp only [hs1, hs2]
  simp [uriFromRest]

/-- A leading `http://` scheme is stripped before resolution. -/
theorem parse_url_scheme (t : List Char) :
    parse_url (("http://".data) ++ t) = parse_url_core t := by
  have h7 : ("http://".data).length = 7 := rfl
  unfold parse_url stripScheme
  rw [← h7, List.take_left, List.drop_left, if_pos rfl]

/-- Without the scheme, the target is resolved as given. -/
theorem parse_url_no_scheme (t : List Char) (hns : ¬ t.take 7 = ("http://".data)) :
    parse_url t = parse_url_core t := by
  unfold parse_url stripScheme
  rw [if_neg hns]

-- ### fixed payloads and the forwarding loop

/-- Fixed header block appended to every forwarded request (proxy.c line 9). -/
def client_res_hdr : List Char :=
  ("User-Agent: Mozilla/5.0 (X11; Linux x86_64; rv:10.0.3) Gecko/20120305 Firefox/10.0.3\r\nConnection: close\r\nProxy-Connection: close\r\n\r\n".data)

/-- Fixed response written for bad requests and failed upstream connects
(proxy.c line 12). -/
def bad_request : List Char :=
  ("HTTP/1.0 400 Bad Request\r\nContent-Type: plain/text\r\nContent-Length: 0\r\n\r\n".data)

/-- The header-suppression test of proxy.c line 168: a line is dropped
exactly when its first 10 bytes are `User-Agent` or `Connection`, or its
first 16 bytes are `Proxy-Connection` (`strncmp` prefix comparisons). -/
def isDropHdr (l : List Char) : Bool :=
  decide (l.take 10 = ("User-Agent".data)) || decide (l.take 10 = ("Connection".data))
    || decide (l.take 16 = ("Proxy-Connection".data))

/-- The header-forwarding loop of `proxy` (lines 163-171): relay client
header lines until the blank `\r\n` line (or end of input), dropping the
prefix-matched headers. -/
def forwardHeadersLoop : List (List Char) → List (List Char)
  | [] => []
  | l :: ls =>
    if l = ("\r\n".data) then []
    else if isDropHdr l then forwardHeadersLoop ls
    else l :: forwardHeadersLoop ls

/-- Everything `proxy` writes to the upstream socket (lines 159-172):
the rewritten request line `METHOD URI VERSION\r\n`, the surviving client
header lines, and the fixed `client_res_hdr` block. -/
def upstreamRequest (method uri version : List Char) (hdrs : List (List Char)) : List Char :=
  (method ++ ' ' :: (uri ++ ' ' :: (version ++ ("\r\n".data))))
    ++ (forwardHeadersLoop hdrs).flatten ++ client_res_hdr

-- ### the response relay loop

/-- Accumulator of the response relay loop (proxy.c lines 174-188):
bytes written to the client so far, the capture buffer `cachebuf`, the
captured length `len`, and the `valid` flag. -/
structure RelayAcc where
  out : List Char
  buf : List Char
  len : Nat
  valid : Bool
deriving DecidableEq

/-- One iteration of the relay loop for one chunk read by `rio_readnb`:
capture while `valid` and the ceiling is not reached, otherwise clear
`valid`; always write the chunk through to the client. -/
def relayStep (a : RelayAcc) (chunk : List Char) : RelayAcc :=
  if a.valid && decide (a.len + chunk.length < MAX_OBJECT_SIZE) then
    ⟨a.out ++ chunk, a.buf ++ chunk, a.len + chunk.length, a.valid⟩
  else if a.valid then ⟨a.out ++ chunk, a.buf, a.len, false⟩
  else ⟨a.out ++ chunk, a.buf, a.len, a.valid⟩

/-- The relay loop over a list of chunks. -/
def relayRun (a : RelayAcc) : List (List Char) → RelayAcc
  | [] => a
  | ch :: rest => relayRun (relayStep a ch) rest

/-- The whole relay loop started with an empty capture buffer,
`len = 0`, `valid = 1`. -/
def relay (chunks : List (List Char)) : RelayAcc :=
  relayRun ⟨[], [], 0, true⟩ chunks

-- ### the connection handler after parsing

/-- The connection handler `proxy` from the point where the request line
has been parsed and the target resolved (proxy.c lines 141-219), as a
function of the cache, the parsed fields, the client's header lines and
the upstream behaviour (`none`: `open_clientfd` fails; `some chunks`:
the response arrives in those chunks). Result: bytes written to the
client, bytes written to the upstream socket, the new cache. A `none`
result is the eviction-loop crash. -/
def proxy_exchange (c : Cache) (method version host port uri : List Char)
    (hdrs : List (List Char)) (upstream : Option (List (List Char))) :
    Option (List Char × List Char × Cache) :=
  match get_cached_item c host port uri with
  | (some item, c1) => some (item.data.take item.length, [], c1)
  | (none, _) =>
    match upstream with
    | none => some (bad_request, [], c)
    | some chunks =>
      let r := relay chunks
      if r.valid then
        match cache_insert c host port uri r.buf with
        | none => none
        | some c2 => some (r.out, upstreamRequest method uri version hdrs, c2)
      else some (r.out, upstreamRequest method uri version hdrs, c)

/-- One client connection as the handler sees it. -/
structure Exchange where
  method : List Char
  version : List Char
  host : List Char
  port : List Char
  uri : List Char
  hdrs : List (List Char)
  upstream : Option (List (List Char))
deriving DecidableEq

/-- The cache after one handled connection. -/
def applyEx (c : Cache) (e : Exchange) : Option Cache :=
  match proxy_exchange c e.method e.version e.host e.port e.uri e.hdrs e.upstream with
  | none => none
  | some r => some r.2.2

/-- Run a sequence of handled connections against the shared cache. -/
def runEx (c : Cache) : List Exchange → Option Cache
  | [] => some c
  | e :: es =>
    match applyEx c e with
    | none => none
    | some c1 => runEx c1 es

/-- Whether `proxy` calls `close(connfd)` on the termination path taken for
this request, read off proxy.c: the cache-hit path closes the client
descriptor (line 145) and so does the relay path (line 217), but the
upstream-connect-failure path (lines 150-157) writes the 400 payload, frees
the resolved-target strings and returns without a `close(connfd)`. -/
def proxy_closes_client (c : Cache) (host port uri : List Char)
    (upstream : Option (List (List Char))) : Bool :=
  match (get_cached_item c host port uri).1 with
  | some _ => true
  | none =>
    match upstream with
    | none => false
    | some _ => true

-- ### relay loop lemmas

theorem relayStep_out (a : RelayAcc) (ch : List Char) :
    (relayStep a ch).out = a.out ++ ch := by
  unfold relayStep
  split
  · rfl
  · split <;> rfl

theorem relayRun_out (cs : List (List Char)) :
    ∀ a, (relayRun a cs).out = a.out ++ cs.flatten := by
  induction cs with
  | nil => intro a; simp [relayRun]
  | cons ch rest ih =>
    intro a
    simp only [relayRun]
    rw [ih, relayStep_out]
    simp

theorem relayStep_valid_false (a : RelayAcc) (ch : List Char) (h : a.valid = false) :
    (relayStep a ch).valid = false := by
  unfold relayStep
  rw [h]
  simp

theorem relayRun_valid_false (cs : List (List Char)) :
    ∀ a, a.valid = false → (relayRun a cs).valid = false := by
  induction cs with
  | nil => intro a h; exact h
  | cons ch rest ih =>
    intro a h
    simp only [relayRun]
    exact ih _ (relayStep_valid_false a ch h)

theorem relayRun_len (cs : List (List Char)) :
    ∀ a, (relayRun a cs).valid = true →
      (relayRun a cs).len = a.len + (cs.map List.length).sum ∧
      (a.len < MAX_OBJECT_SIZE → (relayRun a cs).len < MAX_OBJECT_SIZE) := by
  induction cs with
  | nil =>
    intro a h
    exact ⟨by simp [relayRun], fun h2 => h2⟩
  | cons ch rest ih =>
    intro a h
    have hav : a.valid = true := by
      by_contra hne
      have hf : a.valid = false := by
        revert hne; cases a.valid <;> simp
      have hvf := relayRun_valid_false (ch :: rest) a hf
      rw [hvf] at h
      exact Bool.noConfusion h
    by_cases hcap : a.len + ch.length < MAX_OBJECT_SIZE
    · have hstep : relayStep a ch
          = ⟨a.out ++ ch, a.buf ++ ch, a.len + ch.length, a.valid⟩ := by
        unfold relayStep
        rw [if_pos (by simp [hav, hcap])]
      have hrw : relayRun a (ch :: rest) = relayRun (relayStep a ch) rest := rfl
      rw [hrw, hstep] at h ⊢
      obtain ⟨hlen, himp⟩ := ih _ h
      constructor
      · rw [hlen]
        simp only [List.map_cons, List.sum_cons]
        omega
      · intro _
        exact himp (by simpa using hcap)
    · exfalso
      have hstep : (relayStep a ch).valid = false := by
        unfold relayStep
        rw [if_neg (by simp [hcap]), if_pos hav]
      have hvf := relayRun_valid_false rest _ hstep
      have hrw : relayRun a (ch :: rest) = relayRun (relayStep a ch) rest := rfl
      rw [hrw, hvf] at h
      exact Bool.noConfusion h

theorem relay_oversized (chunks : List (List Char))
    (hbig : MAX_OBJECT_SIZE ≤ (chunks.map List.length).sum) :
    (relay chunks).valid = false := by
  unfold relay
  by_contra hne
  have hv : (relayRun ⟨[], [], 0, true⟩ chunks).valid = true := by
    revert hne
    cases (relayRun ⟨[], [], 0, true⟩ chunks).valid <;> simp
  obtain ⟨hlen, himp⟩ := relayRun_len chunks ⟨[], [], 0, true⟩ hv
  have hlt := himp (by simp [MAX_OBJECT_SIZE])
  rw [hlen] at hlt
  simp at hlt
  omega

theorem relay_out (chunks : List (List Char)) : (relay chunks).out = chunks.flatten := by
  unfold relay
  rw [relayRun_out]
  simp

-- ### key uniqueness lemmas

theorem countKey_middle (host port uri : List Char) (e : CacheItem) (l1 l2 : List CacheItem) :
    countKey host port uri (e :: (l1 ++ l2)) = countKey host port uri (l1 ++ e :: l2) := by
  rw [countKey_cons, countKey_append, countKey_append, countKey_cons]
  omega

theorem matchesKey_mkItem (h1 p1 u1 host port uri data : List Char) :
    matchesKey h1 p1 u1 (mkItem host port uri data) = true
      ↔ (host = h1 ∧ port = p1 ∧ uri = u1) := by
  simp [matchesKey, mkItem]

theorem cache_insert_unique (c c2 : Cache) (host port uri data : List Char)
    (hu : KeyUnique c.items)
    (h0 : countKey host port uri c.items = 0)
    (hins : cache_insert c host port uri data = some c2) :
    KeyUnique c2.items ∧ countKey host port uri c2.items = 1 := by
  unfold cache_insert evictLoop at hins
  cases hev : evictGo data.length c.items.length c with
  | none => rw [hev] at hins; exact absurd hins (by simp)
  | some c1 =>
    rw [hev] at hins
    have hc2 : c2 = ⟨mkItem host port uri data :: c1.items,
        c1.cachesize + (data.length : Int)⟩ := by
      have := Option.some.inj hins
      exact this.symm
    obtain ⟨j, hj, hit⟩ := evictGo_items_take c.items.length c c1 data.length hev
    constructor
    · intro h1 p1 u1
      rw [hc2]
      show countKey h1 p1 u1 (mkItem host port uri data :: c1.items) ≤ 1
      rw [countKey_cons, hit]
      by_cases hm : matchesKey h1 p1 u1 (mkItem host port uri data) = true
      · obtain ⟨rfl, rfl, rfl⟩ := (matchesKey_mkItem h1 p1 u1 host port uri data).mp hm
        rw [if_pos hm]
        have hle := countKey_take_le host port uri c.items j
        omega
      · rw [if_neg hm]
        have hle := countKey_take_le h1 p1 u1 c.items j
        have hone := hu h1 p1 u1
        omega
    · rw [hc2]
      show countKey host port uri (mkItem host port uri data :: c1.items) = 1
      rw [countKey_cons, hit,
        if_pos ((matchesKey_mkItem host port uri host port uri data).mpr ⟨rfl, rfl, rfl⟩)]
      have hle := countKey_take_le host port uri c.items j
      omega

theorem proxy_exchange_unique (c : Cache) (method version host port uri : List Char)
    (hdrs : List (List Char)) (upstream : Option (List (List Char)))
    (hu : KeyUnique c.items) :
    ∀ out upb c1,
      proxy_exchange c method version host port uri hdrs upstream = some (out, upb, c1) →
      KeyUnique c1.items := by
  intro out upb c1 hrun
  cases hx : extractFirst host port uri c.items with
  | some pr =>
    obtain ⟨e, rest⟩ := pr
    simp only [proxy_exchange, get_cached_item, hx, Option.some.injEq, Prod.mk.injEq] at hrun
    obtain ⟨_, _, hc1⟩ := hrun
    obtain ⟨l1, l2, hl, hr, _⟩ := extractFirst_some host port uri c.items e rest hx
    rw [← hc1]
    intro h1 p1 u1
    show countKey h1 p1 u1 (e :: rest) ≤ 1
    rw [hr, countKey_middle, ← hl]
    exact hu h1 p1 u1
  | none =>
    simp only [proxy_exchange, get_cached_item, hx] at hrun
    cases upstream with
    | none =>
      simp only [Option.some.injEq, Prod.mk.injEq] at hrun
      obtain ⟨_, _, hc1⟩ := hrun
      rw [← hc1]
      exact hu
    | some chunks =>
      simp only at hrun
      by_cases hv : (relay chunks).valid = true
      · rw [if_pos hv] at hrun
        cases hins : cache_insert c host port uri (relay chunks).buf with
        | none => rw [hins] at hrun; exact absurd hrun (by simp)
        | some c2 =>
          rw [hins] at hrun
          simp only [Option.some.injEq, Prod.mk.injEq] at hrun
          obtain ⟨_, _, hc1⟩ := hrun
          rw [← hc1]
          have h0 : countKey host port uri c.items = 0 :=
            (countKey_eq_zero host port uri c.items).mpr
              ((extractFirst_none host port uri c.items).mp hx)
          exact (cache_insert_unique c c2 host port uri (relay chunks).buf hu h0 hins).1
      · rw [if_neg hv] at hrun
        simp only [Option.some.injEq, Prod.mk.injEq] at hrun
        obtain ⟨_, _, hc1⟩ := hrun
        rw [← hc1]
        exact hu

theorem runEx_unique :
    ∀ (exs : List Exchange) (c : Cache), KeyUnique c.items →
      ∀ c1, runEx c exs = some c1 → KeyUnique c1.items := by
  intro exs
  induction exs with
  | nil =>
    intro c hu c1 h
    simp only [runEx, Option.some.injEq] at h
    rw [← h]
    exact hu
  | cons e es ih =>
    intro c hu c1 h
    simp only [runEx] at h
    cases hap : applyEx c e with
    | none => rw [hap] at h; exact absurd h (by simp)
    | some cmid =>
      rw [hap] at h
      have humid : KeyUnique cmid.items := by
        unfold applyEx at hap
        cases hpe : proxy_exchange c e.method e.version e.host e.port e.uri e.hdrs e.upstream with
        | none => rw [hpe] at hap; exact absurd hap (by simp)
        | some r =>
          rw [hpe] at hap
          simp only [Option.some.injEq] at hap
          obtain ⟨out, upb, cnew⟩ := r
          rw [← hap]
          exact proxy_exchange_unique c e.method e.version e.host e.port e.uri e.hdrs
            e.upstream hu out upb cnew hpe
      exact ih cmid humid c1 h

theorem proxy_exchange_present (c : Cache) (method version host port uri : List Char)
    (hdrs : List (List Char)) (upstream : Option (List (List Char)))
    (h1 : countKey host port uri c.items = 1) :
    ∃ out c1,
      proxy_exchange c method version host port uri hdrs upstream = some (out, [], c1)
        ∧ countKey host port uri c1.items = 1 := by
  cases hx : extractFirst host port uri c.items with
  | none =>
    exfalso
    have h0 : countKey host port uri c.items = 0 :=
      (countKey_eq_zero host port uri c.items).mpr
        ((extractFirst_none host port uri c.items).mp hx)
    omega
  | some pr =>
    obtain ⟨e, rest⟩ := pr
    obtain ⟨l1, l2, hl, hr, _⟩ := extractFirst_some host port uri c.items e rest hx
    refine ⟨e.data.take e.length, ⟨e :: rest, c.cachesize⟩, ?_, ?_⟩
    · simp only [proxy_exchange, get_cached_item, hx]
    · show countKey host port uri (e :: rest) = 1
      rw [hr, countKey_middle, ← hl]
      exact h1

-- ### forwarding loop characterisation

theorem forwardHeadersLoop_eq (ls : List (List Char)) :
    forwardHeadersLoop ls
      = (ls.takeWhile (fun l => !decide (l = ("\r\n".data)))).filter
          (fun l => !isDropHdr l) := by
  induction ls with
  | nil => rfl
  | cons l ls2 ih =>
    simp only [forwardHeadersLoop]
    by_cases hb : l = ("\r\n".data)
    · rw [if_pos hb]
      simp [List.takeWhile_cons, hb]
    · rw [if_neg hb]
      by_cases hd : isDropHdr l = true
      · rw [if_pos hd, ih]
        simp [List.takeWhile_cons, List.filter_cons, hb, hd]
      · rw [if_neg hd, ih]
        have hd2 : isDropHdr l = false := by
          revert hd; cases isDropHdr l <;> simp
        simp [List.takeWhile_cons, List.filter_cons, hb, hd2]

-- ### claim theorems

/-- C1: starting from the empty cache, any sequence of lookups and inserts in
which every inserted entry's length is below the per-object ceiling runs
without crashing, keeps `total_size` equal to the sum of the entries' lengths
at every point, and keeps it within the budget after each operation; moreover,
any single insert on a size-consistent cache evicts exactly a suffix of the
recency list (the least-recently-used entries, taken from the tail in strict
recency order) and exactly as many of them as needed for the new entry to fit
the budget, the surviving entries being the `take j` prefix. -/
theorem c1_eviction_and_size_invariant :
    (∀ ops : List CacheOp,
      (∀ host port uri data, CacheOp.op_insert host port uri data ∈ ops →
        data.length < MAX_OBJECT_SIZE) →
      ∃ c, runOps emptyCache ops = some c ∧
        c.cachesize = sumLens c.items ∧ c.cachesize ≤ MAX_CACHE_SIZE) ∧
    (∀ (c : Cache) (host port uri data : List Char),
      c.cachesize = sumLens c.items →
      data.length < MAX_OBJECT_SIZE →
      ∃ j, j ≤ c.items.length ∧
        cache_insert c host port uri data
          = some ⟨mkItem host port uri data :: c.items.take j,
              sumLens (c.items.take j) + (data.length : Int)⟩ ∧
        sumLens (c.items.take j) + (data.length : Int) ≤ MAX_CACHE_SIZE ∧
        ∀ i, j < i → i ≤ c.items.length →
          MAX_CACHE_SIZE < sumLens (c.items.take i) + (data.length : Int)) := by
  constructor
  · intro ops hlens
    exact runOps_inv ops emptyCache rfl (by decide) hlens
  · intro c host port uri data hsz hlen
    refine cache_insert_spec c host port uri data hsz ?_
    simp only [MAX_OBJECT_SIZE] at hlen
    simp only [MAX_CACHE_SIZE]
    omega

/-- C1 witness: one concrete insert from the empty cache. -/
theorem c1_eviction_and_size_invariant_witness :
    ∃ c, runOps emptyCache
        [CacheOp.op_insert ("h".data) ("80".data) ("/".data) ("ab".data)] = some c ∧
      c.cachesize = sumLens c.items ∧ c.cachesize ≤ MAX_CACHE_SIZE :=
  c1_eviction_and_size_invariant.1
    [CacheOp.op_insert ("h".data) ("80".data) ("/".data) ("ab".data)]
    (by
      intro host port uri data hm
      simp only [List.mem_singleton] at hm
      injection hm with h1 h2 h3 h4
      subst h4
      decide)

/-- C2 counterexample: the insert block of `proxy` performs no duplicate
check, so performing the insert operation with a key already present leaves
two entries for that key, not one. -/
theorem c2_counterexample :
    cache_insert ⟨[mkItem ("h".data) ("80".data) ("/".data) ("x".data)], 1⟩
        ("h".data) ("80".data) ("/".data) ("x".data)
      = some ⟨[mkItem ("h".data) ("80".data) ("/".data) ("x".data),
               mkItem ("h".data) ("80".data) ("/".data) ("x".data)], 2⟩ ∧
    countKey ("h".data) ("80".data) ("/".data)
      [mkItem ("h".data) ("80".data) ("/".data) ("x".data),
       mkItem ("h".data) ("80".data) ("/".data) ("x".data)] = 2 := by
  constructor
  · decide
  · decide

/-- C2 (amended): the insert block itself does not deduplicate, but the
handler only inserts after a lookup miss, so across whole handled connections
at most one entry per key ever exists: every run of connections from the empty
cache preserves key uniqueness, and a connection whose key is already cached
leaves exactly one entry for that key (the promoted one). -/
theorem c2_handler_key_uniqueness :
    (∀ (exs : List Exchange) (c1 : Cache), runEx emptyCache exs = some c1 →
      KeyUnique c1.items) ∧
    (∀ (c : Cache) (method version host port uri : List Char)
        (hdrs : List (List Char)) (upstream : Option (List (List Char))),
      countKey host port uri c.items = 1 →
      ∃ out c1,
        proxy_exchange c method version host port uri hdrs upstream
          = some (out, [], c1) ∧
        countKey host port uri c1.items = 1) := by
  constructor
  · intro exs c1 h
    refine runEx_unique exs emptyCache ?_ c1 h
    intro host port uri
    simp [emptyCache, countKey]
  · intro c method version host port uri hdrs upstream h1
    exact proxy_exchange_present c method version host port uri hdrs upstream h1

/-- C2 witness: a request for an already-cached key leaves exactly one entry. -/
theorem c2_handler_key_uniqueness_witness :
    ∃ out c1,
      proxy_exchange ⟨[mkItem ("h".data) ("80".data) ("/".data) ("x".data)], 1⟩
          ("GET".data) ("HTTP/1.0".data) ("h".data) ("80".data) ("/".data) [] none
        = some (out, [], c1) ∧
      countKey ("h".data) ("80".data) ("/".data) c1.items = 1 :=
  c2_handler_key_uniqueness.2
    ⟨[mkItem ("h".data) ("80".data) ("/".data) ("x".data)], 1⟩
    ("GET".data) ("HTTP/1.0".data) ("h".data) ("80".data) ("/".data) [] none
    (by decide)

/-- C3: inserting an entry below the per-object ceiling with room in the
budget prepends it as the most-recently-used (front) entry without evicting
anything; a subsequent lookup of the same key returns exactly that entry,
whose `data` and `length` are the inserted bytes and their count, and leaves
the cache with the entry still at the front. -/
theorem c3_insert_lookup_round_trip (c : Cache) (host port uri data : List Char)
    (hlen : data.length < MAX_OBJECT_SIZE)
    (hroom : c.cachesize + (data.length : Int) ≤ MAX_CACHE_SIZE) :
    cache_insert c host port uri data
        = some ⟨mkItem host port uri data :: c.items,
            c.cachesize + (data.length : Int)⟩ ∧
    get_cached_item
        ⟨mkItem host port uri data :: c.items, c.cachesize + (data.length : Int)⟩
        host port uri
      = (some (mkItem host port uri data),
         ⟨mkItem host port uri data :: c.items, c.cachesize + (data.length : Int)⟩) ∧
    (mkItem host port uri data).data = data ∧
    (mkItem host port uri data).length = data.length := by
  refine ⟨?_, ?_, rfl, rfl⟩
  · unfold cache_insert evictLoop
    rw [evictGo_not_over c.items.length c data.length (by omega)]
  · unfold get_cached_item
    have hm : matchesKey host port uri (mkItem host port uri data) = true :=
      (matchesKey_mkItem host port uri host port uri data).mpr ⟨rfl, rfl, rfl⟩
    simp only [extractFirst, if_pos hm]

/-- C3 witness: a concrete round trip through the empty cache. -/
theorem c3_insert_lookup_round_trip_witness :
    cache_insert emptyCache ("h".data) ("80".data) ("/".data) ("ab".data)
        = some ⟨mkItem ("h".data) ("80".data) ("/".data) ("ab".data) :: emptyCache.items,
            emptyCache.cachesize + ((("ab".data)).length : Int)⟩ ∧
    get_cached_item
        ⟨mkItem ("h".data) ("80".data) ("/".data) ("ab".data) :: emptyCache.items,
         emptyCache.cachesize + ((("ab".data)).length : Int)⟩
        ("h".data) ("80".data) ("/".data)
      = (some (mkItem ("h".data) ("80".data) ("/".data) ("ab".data)),
         ⟨mkItem ("h".data) ("80".data) ("/".data) ("ab".data) :: emptyCache.items,
          emptyCache.cachesize + ((("ab".data)).length : Int)⟩) ∧
    (mkItem ("h".data) ("80".data) ("/".data) ("ab".data)).data = ("ab".data) ∧
    (mkItem ("h".data) ("80".data) ("/".data) ("ab".data)).length = ("ab".data).length :=
  c3_insert_lookup_round_trip emptyCache ("h".data) ("80".data) ("/".data) ("ab".data)
    (by decide) (by decide)

/-- C4: a single-space-separated `METHOD URL VERSION` line (tokens free of
space/CR/LF, optional CRLF terminator) with a supported version parses to
exactly those three tokens; a token line with fewer than three tokens is
rejected; a token line whose third token is neither `HTTP/1.0` nor `HTTP/1.1`
is rejected. -/
theorem c4_request_line_cases :
    (∀ (m u v : List Char) (crlf : Bool), isToken m → isToken u →
      (v = ("HTTP/1.0".data) ∨ v = ("HTTP/1.1".data)) →
      check_request_line (mkLine [m, u, v] crlf) = some (m, u, v)) ∧
    (∀ (ts : List (List Char)) (crlf : Bool), (∀ t ∈ ts, isToken t) →
      ts.length < 3 → check_request_line (mkLine ts crlf) = none) ∧
    (∀ (t1 t2 t3 : List Char) (ts : List (List Char)) (crlf : Bool),
      isToken t1 → isToken t2 → isToken t3 → (∀ t ∈ ts, isToken t) →
      t3 ≠ ("HTTP/1.0".data) → t3 ≠ ("HTTP/1.1".data) →
      check_request_line (mkLine (t1 :: t2 :: t3 :: ts) crlf) = none) :=
  ⟨check_valid_request_line, check_short_line, check_bad_version⟩

/-- C4 witness: `GET / HTTP/1.1` parses to its three tokens. -/
theorem c4_request_line_cases_witness :
    check_request_line (mkLine [("GET".data), ("/".data), ("HTTP/1.1".data)] true)
      = some (("GET".data), ("/".data), ("HTTP/1.1".data)) :=
  c4_request_line_cases.1 ("GET".data) ("/".data) ("HTTP/1.1".data) true
    (by decide) (by decide) (Or.inr rfl)

/-- C5 counterexample: in `example.com/a:b` the only `:` occurs after the
first `/`, yet the resolver does not default the port to `80`: it takes the
colon branch, making the host `example.com/a` and the port `b`. -/
theorem c5_counterexample :
    parse_url ("example.com/a:b".data)
      = some (("example.com/a".data), (("b".data), ("/".data))) ∧
    ("b".data) ≠ ("80".data) := by
  constructor
  · decide
  · decide

/-- C5 (amended): the resolver branches on whether `:` occurs anywhere in the
scheme-stripped target, not only before the first `/`. With no `:` at all,
host runs to the first `/` and port defaults to `80`; with a `:` anywhere,
host is the substring up to the first `:` (even if it contains `/`) and port
is the `/`-delimited token after the colon. -/
theorem c5_resolver_branches :
    (∀ t, parse_url (("http://".data) ++ t) = parse_url_core t) ∧
    (∀ t, ¬ t.take 7 = ("http://".data) → parse_url t = parse_url_core t) ∧
    (∀ t, ':' ∉ t → t.head? ≠ some '/' →
      parse_url_core t
        = some (t.takeWhile (fun c => !(c == '/')), ("80".data),
            if '/' ∈ t then uriFromRest ((t.dropWhile (fun c => !(c == '/'))).drop 1)
            else ("/".data))) ∧
    (∀ h p r, h ≠ [] → (∀ c ∈ h, c ≠ ':') → p ≠ [] → (∀ c ∈ p, c ≠ '/') →
      parse_url_core (h ++ ':' :: (p ++ '/' :: r)) = some (h, p, uriFromRest r)) ∧
    (∀ h p, h ≠ [] → (∀ c ∈ h, c ≠ ':') → p ≠ [] → (∀ c ∈ p, c ≠ '/') →
      parse_url_core (h ++ ':' :: p) = some (h, p, ("/".data))) :=
  ⟨parse_url_scheme, parse_url_no_scheme, parse_url_core_no_colon,
   parse_url_core_colon_slash, parse_url_core_colon_no_slash⟩

/-- C5 witness: the colon-then-slash branch at a concrete target. -/
theorem c5_resolver_branches_witness :
    parse_url_core (("example.com".data) ++ ':' :: (("8080".data) ++ '/' :: ("a/b".data)))
      = some (("example.com".data), (("8080".data), uriFromRest ("a/b".data))) :=
  c5_resolver_branches.2.2.2.1 ("example.com".data) ("8080".data) ("a/b".data)
    (by decide) (by decide) (by decide) (by decide)

/-- C6: the three concrete target resolutions stated by the spec. -/
theorem c6_resolution_cases :
    parse_url ("http://example.com:8080/a/b".data)
      = some (("example.com".data), (("8080".data), ("/a/b".data))) ∧
    parse_url ("http://example.com".data)
      = some (("example.com".data), (("80".data), ("/".data))) ∧
    parse_url ("example.com/x".data)
      = some (("example.com".data), (("80".data), ("/x".data))) := by
  refine ⟨?_, ?_, ?_⟩
  · decide
  · decide
  · decide

/-- C7: on a cache miss, a response whose total length reaches or exceeds the
per-object ceiling is still streamed to the client in full (the concatenation
of every chunk, in order), but the cache is left unchanged, so afterwards no
entry for the request's key exists. -/
theorem c7_oversized_response_streamed_never_cached
    (c : Cache) (method version host port uri : List Char)
    (hdrs : List (List Char)) (chunks : List (List Char))
    (hmiss : extractFirst host port uri c.items = none)
    (hbig : MAX_OBJECT_SIZE ≤ (chunks.map List.length).sum) :
    proxy_exchange c method version host port uri hdrs (some chunks)
      = some (chunks.flatten, upstreamRequest method uri version hdrs, c) ∧
    extractFirst host port uri c.items = none := by
  refine ⟨?_, hmiss⟩
  have hvf : (relay chunks).valid = false := relay_oversized chunks hbig
  simp only [proxy_exchange, get_cached_item, hmiss]
  rw [if_neg (by simp [hvf])]
  rw [relay_out]

/-- C7 witness: a single chunk of exactly the ceiling size. -/
theorem c7_oversized_response_streamed_never_cached_witness :
    proxy_exchange emptyCache ("GET".data) ("HTTP/1.1".data)
        ("h".data) ("80".data) ("/".data) [] (some [List.replicate MAX_OBJECT_SIZE 'a'])
      = some (([List.replicate MAX_OBJECT_SIZE 'a']).flatten,
          upstreamRequest ("GET".data) ("/".data) ("HTTP/1.1".data) [], emptyCache) ∧
    extractFirst ("h".data) ("80".data) ("/".data) emptyCache.items = none :=
  c7_oversized_response_streamed_never_cached emptyCache
    ("GET".data) ("HTTP/1.1".data) ("h".data) ("80".data) ("/".data)
    [] [List.replicate MAX_OBJECT_SIZE 'a'] (by decide) (by simp)

/-- C8 counterexample: `Connection-Id: 5` names a header that is none of
User-Agent, Connection or Proxy-Connection (its name, the bytes before the
colon, is `Connection-Id`), yet the forwarding loop suppresses it, because the
code only compares the first 10 bytes of the line. -/
theorem c8_counterexample :
    ("Connection-Id: 5\r\n".data).takeWhile (fun c => !(c == ':'))
        ≠ ("User-Agent".data) ∧
    ("Connection-Id: 5\r\n".data).takeWhile (fun c => !(c == ':'))
        ≠ ("Connection".data) ∧
    ("Connection-Id: 5\r\n".data).takeWhile (fun c => !(c == ':'))
        ≠ ("Proxy-Connection".data) ∧
    forwardHeadersLoop [("Connection-Id: 5\r\n".data)] = [] := by
  refine ⟨?_, ?_, ?_, ?_⟩
  · decide
  · decide
  · decide
  · decide

/-- C8 (amended): the bytes sent upstream are the rewritten request line
`METHOD URI VERSION\r\n`, then the client header lines up to the blank line
filtered by a prefix match (a line is dropped exactly when its first 10 bytes
are `User-Agent` or `Connection`, or its first 16 bytes are
`Proxy-Connection` - so genuine User-Agent/Connection/Proxy-Connection
headers are suppressed, but so is any other header sharing those prefixes),
and finally the fixed `client_res_hdr` block. -/
theorem c8_forwarding :
    (∀ (method uri version : List Char) (hdrs : List (List Char)),
      upstreamRequest method uri version hdrs
        = (method ++ ' ' :: (uri ++ ' ' :: (version ++ ("\r\n".data))))
          ++ ((hdrs.takeWhile (fun l => !decide (l = ("\r\n".data)))).filter
                (fun l => !isDropHdr l)).flatten
          ++ client_res_hdr) ∧
    (∀ rest : List Char,
      isDropHdr (("User-Agent".data) ++ rest) = true ∧
      isDropHdr (("Connection".data) ++ rest) = true ∧
      isDropHdr (("Proxy-Connection".data) ++ rest) = true) := by
  constructor
  · intro method uri version hdrs
    rw [upstreamRequest, forwardHeadersLoop_eq]
  · intro rest
    refine ⟨?_, ?_, ?_⟩
    · unfold isDropHdr
      rw [show (10 : Nat) = ("User-Agent".data).length from rfl, List.take_left]
      simp
    · unfold isDropHdr
      rw [show (10 : Nat) = ("Connection".data).length from rfl, List.take_left]
      simp
    · unfold isDropHdr
      rw [show (16 : Nat) = ("Proxy-Connection".data).length from rfl, List.take_left]
      simp

/-- C9: at the failing input (cache miss for the target, upstream connect
failing) the handler does write exactly the fixed 400 payload - status line
`HTTP/1.0 400 Bad Request`, a `Content-Type: plain/text` header,
`Content-Length: 0`, a terminating blank line, no body - writes nothing
upstream, and creates no cache entry; but, unlike every other termination
path, it never closes the client connection: the close flag is false on the
connect-failure path while it is true on the cache-hit and relay paths. -/
theorem c9_connect_failure_leaks_connfd :
    proxy_exchange emptyCache ("GET".data) ("HTTP/1.1".data)
        ("h".data) ("80".data) ("/".data) [] none
      = some (bad_request, [], emptyCache) ∧
    bad_request
      = ("HTTP/1.0 400 Bad Request\r\n".data) ++ ("Content-Type: plain/text\r\n".data)
          ++ ("Content-Length: 0\r\n".data) ++ ("\r\n".data) ∧
    proxy_closes_client emptyCache ("h".data) ("80".data) ("/".data) none = false ∧
    proxy_closes_client emptyCache ("h".data) ("80".data) ("/".data)
        (some [("ok".data)]) = true ∧
    proxy_closes_client ⟨[mkItem ("h".data) ("80".data) ("/".data) ("x".data)], 1⟩
        ("h".data) ("80".data) ("/".data) none = true := by
  refine ⟨?_, ?_, ?_, ?_, ?_⟩
  · decide
  · decide
  · decide
  · decide
  · decide

/-- C10: when `total_size` matches the sum of the entry lengths, every entry
is below the per-object ceiling, and the new length is below the ceiling, the
eviction loop terminates with a cache state and never reaches the branch that
deletes from an empty list (the NULL dereference of `delete_last_cache`),
because the ceiling is smaller than the budget. -/
theorem c10_eviction_never_on_empty (c : Cache) (len : Nat)
    (hsz : c.cachesize = sumLens c.items)
    (hent : ∀ e ∈ c.items, e.length < MAX_OBJECT_SIZE)
    (hlen : len < MAX_OBJECT_SIZE) :
    ∃ c1, evictLoop len c = some c1 := by
  obtain ⟨j, _, heq, _, _⟩ := evictGo_spec c.items.length c len rfl hsz
    (by simp only [MAX_OBJECT_SIZE] at hlen; simp only [MAX_CACHE_SIZE]; omega)
  exact ⟨⟨c.items.take j, sumLens (c.items.take j)⟩, heq⟩

/-- C10 witness: the loop on a concrete one-entry cache. -/
theorem c10_eviction_never_on_empty_witness :
    ∃ c1, evictLoop 5 ⟨[mkItem ("h".data) ("80".data) ("/".data) ("x".data)], 1⟩
        = some c1 :=
  c10_eviction_never_on_empty
    ⟨[mkItem ("h".data) ("80".data) ("/".data) ("x".data)], 1⟩ 5
    (by decide) (by decide) (by decide)
